import Mathlib

/-!
Verification of the word-level diarization/ASR alignment and scoring core
(`ASR_DIAR_OFFLINE` in `nemo/collections/asr/parts/utils/diarization_utils.py`).

Times are modelled as exact rationals (ℚ).  Python's `round(x, 2)` is modelled
by rounding to the nearest multiple of 1/100; Python's fallible division is
modelled with `Option`.
-/

namespace DiarizationUtils

/-- A time interval `[start, end]` in seconds. -/
abbrev Itv : Type := ℚ × ℚ

/-- Python `round(x, 2)`: round to the nearest multiple of `1/100`. -/
def round2 (q : ℚ) : ℚ := ((round (100 * q) : ℤ) : ℚ) / 100

/-! ### Speech-interval merger
`_get_speech_labels_from_decoded_prediction`: iterate a counter from
`len(word_ts) - 1` down to `1`; at counter `count`, if the gap between the
intervals at `count - 1` and `count` is at most `nonspeech_threshold`, pop
both and insert the merged interval at `count - 1`. -/

/-- One pass of the `while count > 0` loop of
`_get_speech_labels_from_decoded_prediction`, with `count = c + 1`.
The body (pop `count`, pop `count-1`, insert merged at `count-1`) is the
list surgery `take c ++ [merged] ++ drop (c+2)`. -/
def mergeLoop (thr : ℚ) : Nat → List Itv → List Itv
  | 0, l => l
  | c + 1, l =>
    let l2 :=
      if 1 < l.length then
        match l[c]?, l[c+1]? with
        | some a, some b =>
          if b.1 - a.2 ≤ thr then l.take c ++ [(a.1, b.2)] ++ l.drop (c+2) else l
        | _, _ => l
      else l
    mergeLoop thr c l2

/-- `_get_speech_labels_from_decoded_prediction`: return `[]` on empty input,
otherwise run the backward merging loop from counter `len - 1`. -/
def getSpeechLabelsFromDecodedPrediction (thr : ℚ) (wordTs : List Itv) : List Itv :=
  if wordTs = [] then [] else mergeLoop thr (wordTs.length - 1) wordTs

/-- Combine one interval with the (already merged) list to its right:
merge with its head when the gap is at most `thr`. -/
def combineSpec (thr : ℚ) (a : Itv) : List Itv → List Itv
  | [] => [a]
  | c :: r => if c.1 - a.2 ≤ thr then (a.1, c.2) :: r else a :: c :: r

/-- Specification-level merger, written from the spec's words: process the
gaps from the last pair toward the first, merging any two consecutive
intervals whose gap `next.start - prev.end` is at most `thr`, so that
merges cascade. -/
def mergeSpecList (thr : ℚ) : List Itv → List Itv
  | [] => []
  | a :: rest => combineSpec thr a (mergeSpecList thr rest)

theorem combineSpec_ne_nil (thr : ℚ) (a : Itv) (l : List Itv) :
    combineSpec thr a l ≠ [] := by
  cases l with
  | nil => simp [combineSpec]
  | cons c r =>
    simp only [combineSpec]
    split <;> simp

theorem mergeSpecList_ne_nil (thr : ℚ) (a : Itv) (l : List Itv) :
    mergeSpecList thr (a :: l) ≠ [] := by
  simp only [mergeSpecList]
  exact combineSpec_ne_nil thr a _

theorem combineSpec_append (thr : ℚ) (x : Itv) (l : List Itv) (B : Itv)
    (hl : l ≠ []) : combineSpec thr x (l ++ [B]) = combineSpec thr x l ++ [B] := by
  cases l with
  | nil => exact absurd rfl hl
  | cons c r =>
    simp only [List.cons_append, combineSpec]
    split <;> simp

/-- Appending a final pair `[A, B]` interacts with the spec merger:
if their gap is within `thr` they fuse, otherwise `B` stays separate. -/
theorem mergeSpecList_snoc_pair (thr : ℚ) (front : List Itv) (A B : Itv) :
    mergeSpecList thr (front ++ [A, B]) =
      if B.1 - A.2 ≤ thr then mergeSpecList thr (front ++ [(A.1, B.2)])
      else mergeSpecList thr (front ++ [A]) ++ [B] := by
  induction front with
  | nil =>
    simp only [List.nil_append, mergeSpecList, combineSpec]
    split <;> rfl
  | cons x f ih =>
    simp only [List.cons_append, mergeSpecList, List.append_eq]
    rw [ih]
    split
    · rfl
    · cases hf : mergeSpecList thr (f ++ [A]) with
      | nil =>
        cases f with
        | nil => simp [mergeSpecList, combineSpec] at hf
        | cons y g => exact absurd hf (mergeSpecList_ne_nil thr y _)
      | cons c r =>
        exact combineSpec_append thr x (c :: r) B (by simp)

/-- Any list of length `c + 2` splits off its last two elements. -/
theorem exists_snoc_pair (l : List Itv) (c : Nat) (h : l.length = c + 2) :
    ∃ front A B, l = front ++ [A, B] ∧ front.length = c := by
  cases hr : l.reverse with
  | nil =>
    rw [List.reverse_eq_nil_iff] at hr
    subst hr
    simp at h
  | cons B r2 =>
    cases r2 with
    | nil =>
      have : l = [B] := by rw [← l.reverse_reverse, hr]; rfl
      subst this
      simp at h
    | cons A rf =>
      refine ⟨rf.reverse, A, B, ?_, ?_⟩
      · rw [← l.reverse_reverse, hr]
        simp
      · have hlen := congrArg List.length hr
        simp at hlen
        rw [List.length_reverse]
        omega

/-- The backward loop of `_get_speech_labels_from_decoded_prediction`, run on
`l1 ++ l2` with counter `l1.length - 1`, fully merges `l1` and leaves `l2`
untouched: the loop is the right-to-left cascading merge of the spec. -/
theorem mergeLoop_eq_mergeSpecList (thr : ℚ) :
    ∀ (c : Nat) (l1 l2 : List Itv), l1.length = c + 1 →
      mergeLoop thr c (l1 ++ l2) = mergeSpecList thr l1 ++ l2 := by
  intro c
  induction c with
  | zero =>
    intro l1 l2 h
    match l1, h with
    | [a], _ => simp [mergeLoop, mergeSpecList, combineSpec]
  | succ c ih =>
    intro l1 l2 h
    obtain ⟨front, A, B, rfl, hfl⟩ := exists_snoc_pair l1 c (by omega)
    have hassoc : (front ++ [A, B]) ++ l2 = front ++ ([A, B] ++ l2) := by
      simp
    have hA : ((front ++ [A, B]) ++ l2)[c]? = some A := by
      rw [hassoc, List.getElem?_append_right (by omega), hfl]
      simp
    have hB : ((front ++ [A, B]) ++ l2)[c + 1]? = some B := by
      rw [hassoc, List.getElem?_append_right (by omega), hfl]
      simp
    have hlen : 1 < ((front ++ [A, B]) ++ l2).length := by
      simp
      omega
    rw [mergeLoop]
    rw [hA, hB, if_pos hlen]
    dsimp only
    by_cases hgap : B.1 - A.2 ≤ thr
    · rw [if_pos hgap]
      have htake : ((front ++ [A, B]) ++ l2).take c = front := by
        rw [hassoc, ← hfl]
        exact List.take_left front ([A, B] ++ l2)
      have hdrop : ((front ++ [A, B]) ++ l2).drop (c + 2) = l2 := by
        have : c + 2 = (front ++ [A, B]).length := by simp; omega
        rw [this]
        exact List.drop_left (front ++ [A, B]) l2
      rw [htake, hdrop]
      have : front ++ [(A.1, B.2)] ++ l2 = (front ++ [(A.1, B.2)]) ++ l2 := by simp
      rw [this, ih (front ++ [(A.1, B.2)]) l2 (by simp; omega)]
      rw [mergeSpecList_snoc_pair, if_pos hgap]
    · rw [if_neg hgap]
      have hview : (front ++ [A, B]) ++ l2 = (front ++ [A]) ++ (B :: l2) := by
        simp
      rw [hview, ih (front ++ [A]) (B :: l2) (by simp; omega)]
      rw [mergeSpecList_snoc_pair, if_neg hgap]
      simp

/-- `_get_speech_labels_from_decoded_prediction` computes exactly the spec's
right-to-left cascading merge. -/
theorem getSpeechLabels_eq_mergeSpecList (thr : ℚ) (l : List Itv) :
    getSpeechLabelsFromDecodedPrediction thr l = mergeSpecList thr l := by
  cases l with
  | nil => rfl
  | cons a t =>
    unfold getSpeechLabelsFromDecodedPrediction
    rw [if_neg (by simp)]
    have := mergeLoop_eq_mergeSpecList thr ((a :: t).length - 1) (a :: t) [] (by simp)
    simpa using this

/-- All gaps between consecutive merged intervals exceed the threshold. -/
theorem mergeSpecList_chain (thr : ℚ) (l : List Itv) :
    List.Chain' (fun a b : Itv => thr < b.1 - a.2) (mergeSpecList thr l) := by
  induction l with
  | nil => simp [mergeSpecList]
  | cons a rest ih =>
    rw [mergeSpecList]
    cases h : mergeSpecList thr rest with
    | nil => simp [combineSpec]
    | cons c r =>
      rw [h] at ih
      rw [combineSpec]
      by_cases hgap : c.1 - a.2 ≤ thr
      · rw [if_pos hgap]
        rw [List.chain'_cons'] at ih ⊢
        exact ⟨ih.1, ih.2⟩
      · rw [if_neg hgap]
        rw [List.chain'_cons]
        exact ⟨by linarith [not_le.mp hgap], ih⟩

/-- On a list whose consecutive gaps all exceed the threshold, the spec merge
is the identity. -/
theorem mergeSpecList_of_chain (thr : ℚ) (l : List Itv)
    (h : List.Chain' (fun a b : Itv => thr < b.1 - a.2) l) :
    mergeSpecList thr l = l := by
  induction l with
  | nil => rfl
  | cons a rest ih =>
    rw [mergeSpecList, ih h.tail]
    cases rest with
    | nil => rfl
    | cons c r =>
      rw [combineSpec, if_neg (not_le.mpr (List.chain'_cons.mp h).1)]

/-- The spec-level merger is idempotent. -/
theorem mergeSpec_idem (thr : ℚ) (l : List Itv) :
    mergeSpecList thr (mergeSpecList thr l) = mergeSpecList thr l :=
  mergeSpecList_of_chain thr _ (mergeSpecList_chain thr l)

/-! ### Interval-overlap test used by WDER scoring
`isOverlapArray` and `getOverlapRangeArray` are numpy-vectorised over the
reference-interval axis; here the scalar kernels plus their `map` lifts. -/

/-- Scalar kernel of `isOverlapArray`: `(endA > startB) & (endB > startA)`. -/
def isOverlap (a b : Itv) : Bool := decide (a.2 > b.1 ∧ b.2 > a.1)

/-- Scalar kernel of `getOverlapRangeArray`:
`min(endA, endB) - max(startA, startB)`. -/
def getOverlapRange (a b : Itv) : ℚ := min a.2 b.2 - max a.1 b.1

/-- `isOverlapArray(ref_label_array, word_range_tile)`: elementwise overlap
test of each reference interval against the (tiled) word span. -/
def isOverlapArray (refs : List Itv) (w : Itv) : List Bool :=
  refs.map (fun r => isOverlap r w)

/-- `getOverlapRangeArray(ref_label_array, word_range_tile)`. -/
def getOverlapRangeArray (refs : List Itv) (w : Itv) : List ℚ :=
  refs.map (fun r => getOverlapRange r w)

/-! ### Effective WDER -/

/-- The fields of `DER_result_dict['total']` that `get_effective_WDER` reads. -/
structure DERTotals where
  FA : ℚ
  MISS : ℚ

/-- `get_effective_WDER`: `1 - (1 - (FA + MISS)) * (1 - WDER_total)`. -/
def get_effective_WDER (d : DERTotals) (wderTotal : ℚ) : ℚ :=
  1 - ((1 - (d.FA + d.MISS)) * (1 - wderTotal))

/-! ### WDER scoring (`get_WDER`) -/

/-- One entry of `riva_dict['words']`. -/
structure WordEntry where
  start_time : ℚ
  end_time : ℚ
  speaker_label : String

/-- One parsed reference label line `start end speaker`. -/
structure RefSeg where
  stt : ℚ
  en : ℚ
  spk : String

/-- The `[start_time, end_time]` span of a word entry. -/
def wordSpan (w : WordEntry) : Itv := (w.start_time, w.end_time)

/-- The `[start, end]` span of a reference segment. -/
def refSpan (r : RefSeg) : Itv := (r.stt, r.en)

/-- Overlap length of a reference segment against a word span. -/
def ovlLen (r : RefSeg) (span : Itv) : ℚ := getOverlapRange (refSpan r) span

/-- The reference segments whose spans overlap the word span, in order
(the `ovl_bool`-compressed view of the reference array). -/
def ovlCands (labels : List RefSeg) (span : Itv) : List RefSeg :=
  labels.filter (fun r => isOverlap (refSpan r) span)

/-- Per-word correctness test of `get_WDER` (the body of the
`for wdict in words_list` loop), returning the 0/1 increment of
`correct_word_count`.  A word whose `speaker_label` is not in
`mapping_dict`, or which overlaps no reference segment, contributes 0.
Under `lenient_overlap_WDER` a word counts iff the mapped speaker appears
among the speakers of all candidates tied for maximum overlap; otherwise
`np.argmax` picks the first candidate of maximum overlap. -/
def wordCorrect (lenient : Bool) (mapping : List (String × String))
    (labels : List RefSeg) (w : WordEntry) : Nat :=
  match mapping.lookup w.speaker_label with
  | none => 0
  | some est =>
    match ovlCands labels (wordSpan w) with
    | [] => 0
    | c :: cs =>
      let m := (cs.map (fun r => ovlLen r (wordSpan w))).foldr max (ovlLen c (wordSpan w))
      if lenient then
        if est ∈ ((c :: cs).filter
            (fun r => decide (ovlLen r (wordSpan w) = m))).map RefSeg.spk
        then 1 else 0
      else
        match (c :: cs).find? (fun r => decide (ovlLen r (wordSpan w) = m)) with
        | some r => if r.spk = est then 1 else 0
        | none => 0

/-- `correct_word_count` accumulated over one utterance's word list. -/
def countCorrect (lenient : Bool) (mapping : List (String × String))
    (labels : List RefSeg) (words : List WordEntry) : Nat :=
  (words.map (wordCorrect lenient mapping labels)).sum

/-- Per-utterance inputs of `get_WDER`: the recognized word entries, the
diarization speaker mapping, and the reference label list. -/
structure Utt where
  words : List WordEntry
  mapping : List (String × String)
  refLabels : List RefSeg

/-- The per-utterance loop of `get_WDER`: accumulates the list of
per-utterance WDER values together with `grand_total_word_count` and
`grand_correct_word_count`; `none` models the `ZeroDivisionError` raised by
`1 - (correct_word_count / total_word_count)` when an utterance has no
recognized words. -/
def wderAccum (lenient : Bool) : List Utt → Option (List ℚ × Nat × Nat)
  | [] => some ([], 0, 0)
  | u :: us =>
    let t := u.words.length
    let c := countCorrect lenient u.mapping u.refLabels u.words
    if t = 0 then none
    else
      match wderAccum lenient us with
      | none => none
      | some (ws, gt, gc) => some ((1 - (c : ℚ) / (t : ℚ)) :: ws, t + gt, c + gc)

/-- `get_WDER`: per-utterance WDER values and the pooled
`wder_dict['total'] = 1 - grand_correct / grand_total`; `none` models a
division by zero. -/
def get_WDER (lenient : Bool) (utts : List Utt) : Option (List ℚ × ℚ) :=
  match wderAccum lenient utts with
  | none => none
  | some (ws, gt, gc) =>
    if gt = 0 then none else some (ws, 1 - (gc : ℚ) / (gt : ℚ))

/-! ### Silence-aware word-boundary extension -/

/-- The `while c < len(vad_frames)` scan of `closest_silence_start`:
first index `c` onward whose frame confidence drops below the threshold,
or the list length when none does. -/
def silScan (frames : List ℚ) (thr : ℚ) (c : Nat) : Nat :=
  if h : c < frames.length then
    if frames[c] < thr then c else silScan frames thr (c + 1)
  else c
termination_by frames.length - c

/-- `closest_silence_start`: scan forward from `vad_index_word_end + 10`,
clamp to the last frame index, and convert the 10 ms frame index to
seconds (`round(c/100.0, 2)`). -/
def closest_silence_start (vadIdxWordEnd : Nat) (frames : List ℚ) (thr : ℚ) : ℚ :=
  let c := silScan frames thr (vadIdxWordEnd + 10)
  let c2 : ℤ := min ((frames.length : ℤ) - 1) (c : ℤ)
  round2 ((c2 : ℚ) / 100)

/-- The body of the `if k < N-1` branch of `get_enhanced_word_ts_list` for
one word `w` with successor word start `nxt.1`. -/
def enhanceWord (frames : List ℚ) (sadThr maxLen : ℚ) (w nxt : Itv) : Itv :=
  let vadIdx := (⌊100 * w.2⌋).toNat
  let closestSilStt := closest_silence_start vadIdx frames sadThr
  let vadEstLen := round2 (closestSilStt - w.1)
  let wordLen := round2 (w.2 - w.1)
  let lenToNextWord := round2 (nxt.1 - w.1 - 1/100)
  let fixedWordLen := max (min maxLen (min vadEstLen lenToNextWord)) wordLen
  (w.1, w.1 + fixedWordLen)

/-- The per-utterance buffer built by `get_enhanced_word_ts_list`: one
extended timestamp per word index `k < N - 1` (the last word produces no
entry). -/
def get_enhanced_word_ts_list (frames : List ℚ) (sadThr maxLen : ℚ)
    (wordTsSeq : List Itv) : List Itv :=
  (wordTsSeq.zip wordTsSeq.tail).map (fun p => enhanceWord frames sadThr maxLen p.1 p.2)

/-! ### Alignment of words with speaker intervals
(`write_json_and_transcript`) -/

/-- One diarization label `start end speaker`. -/
structure SpkItv where
  stt : ℚ
  en : ℚ
  spk : String

/-- The word loop of `write_json_and_transcript`, carrying the running
state `(idx, end_point, speaker)` exactly as the Python loop does; each
word yields its assigned speaker and whether a speaker-turn marker was
printed before it. -/
def assignGo (labels : List SpkItv) :
    Nat → ℚ → String → List Itv → List (String × Bool)
  | _, _, _, [] => []
  | idx, endPoint, speaker, w :: ws =>
    let wordPos := (w.1 + w.2) / 2
    if wordPos < endPoint then
      (speaker, false) :: assignGo labels idx endPoint speaker ws
    else
      let idx2 := min (idx + 1) (labels.length - 1)
      let L := (labels[idx2]?).getD ⟨0, 0, ""⟩
      (L.spk, true) :: assignGo labels idx2 L.en L.spk ws

/-- The speaker-assignment core of `write_json_and_transcript` for one
utterance: initialise from `labels[0]` and run the word loop. -/
def writeJsonAndTranscriptAssign (labels : List SpkItv) (wordTs : List Itv) :
    List (String × Bool) :=
  match labels with
  | [] => []
  | L0 :: _ => assignGo labels 0 L0.en L0.spk wordTs

/-- Claim-level restatement of the assignment rule: keep only the interval
pointer as state; a word whose midpoint lies before the current interval's
end keeps the current speaker, otherwise the pointer advances one interval
(saturating at the last) and a speaker-turn marker is emitted. -/
def assignSpecGo (labels : List SpkItv) : Nat → List Itv → List (String × Bool)
  | _, [] => []
  | idx, w :: ws =>
    let cur := (labels[idx]?).getD ⟨0, 0, ""⟩
    if (w.1 + w.2) / 2 < cur.en then
      (cur.spk, false) :: assignSpecGo labels idx ws
    else
      let idx2 := min (idx + 1) (labels.length - 1)
      let nxt := (labels[idx2]?).getD ⟨0, 0, ""⟩
      (nxt.spk, true) :: assignSpecGo labels idx2 ws

/-! ### Generic helpers -/

theorem le_foldr_max (l : List ℚ) (b : ℚ) : ∀ x ∈ l, x ≤ l.foldr max b := by
  induction l with
  | nil => intro x hx; simp at hx
  | cons y t ih =>
    intro x hx
    rcases List.mem_cons.mp hx with rfl | hx
    · exact le_max_left _ _
    · exact le_trans (ih x hx) (le_max_right _ _)

theorem base_le_foldr_max (l : List ℚ) (b : ℚ) : b ≤ l.foldr max b := by
  induction l with
  | nil => exact le_refl b
  | cons y t ih => exact le_trans ih (le_max_right _ _)

theorem foldr_max_mem (l : List ℚ) (b : ℚ) :
    l.foldr max b = b ∨ l.foldr max b ∈ l := by
  induction l with
  | nil => exact Or.inl rfl
  | cons y t ih =>
    rcases le_total y (t.foldr max b) with hle | hle
    · rw [List.foldr_cons, max_eq_right hle]
      rcases ih with h | h
      · exact Or.inl h
      · exact Or.inr (List.mem_cons_of_mem y h)
    · rw [List.foldr_cons, max_eq_left hle]
      exact Or.inr (List.mem_cons_self y t)

/-- `round2` is the identity on multiples of `1/100`. -/
theorem round2_on_grid (q : ℚ) (h : ∃ z : ℤ, q = (z : ℚ) / 100) :
    round2 q = q := by
  obtain ⟨z, rfl⟩ := h
  unfold round2
  have h100 : (100 : ℚ) * ((z : ℚ) / 100) = (z : ℚ) := by field_simp
  rw [h100, round_intCast]

/-- `closest_silence_start` always returns a multiple of `1/100`. -/
theorem closest_silence_start_grid (v : Nat) (frames : List ℚ) (thr : ℚ) :
    ∃ z : ℤ, closest_silence_start v frames thr = (z : ℚ) / 100 := by
  refine ⟨min ((frames.length : ℤ) - 1) ((silScan frames thr (v + 10) : Nat) : ℤ), ?_⟩
  unfold closest_silence_start
  exact round2_on_grid _ ⟨_, rfl⟩

/-- The word loop of `write_json_and_transcript` carries `end_point` and
`speaker` redundantly with the interval pointer: it equals the pointer-only
restatement of the assignment rule. -/
theorem assignGo_eq_assignSpecGo (labels : List SpkItv) (ws : List Itv) :
    ∀ idx : Nat,
      assignGo labels idx ((labels[idx]?).getD ⟨0, 0, ""⟩).en
          ((labels[idx]?).getD ⟨0, 0, ""⟩).spk ws
        = assignSpecGo labels idx ws := by
  induction ws with
  | nil => intro idx; rfl
  | cons w rest ih =>
    intro idx
    simp only [assignGo, assignSpecGo]
    by_cases hmid : (w.1 + w.2) / 2 < ((labels[idx]?).getD ⟨0, 0, ""⟩).en
    · simp only [if_pos hmid]
      rw [ih idx]
    · simp only [if_neg hmid]
      rw [ih (min (idx + 1) (labels.length - 1))]

/-- Each word produces exactly one assigned-speaker entry. -/
theorem assignGo_length (labels : List SpkItv) (ws : List Itv) :
    ∀ (idx : Nat) (e : ℚ) (s : String),
      (assignGo labels idx e s ws).length = ws.length := by
  induction ws with
  | nil => intro idx e s; rfl
  | cons w rest ih =>
    intro idx e s
    simp only [assignGo]
    by_cases hmid : (w.1 + w.2) / 2 < e
    · simp only [if_pos hmid]
      simp [ih]
    · simp only [if_neg hmid]
      simp [ih]

/-- Characterisation of the `get_WDER` accumulator when every utterance has
at least one recognized word. -/
theorem wderAccum_eq (lenient : Bool) (utts : List Utt)
    (h : ∀ u ∈ utts, u.words ≠ []) :
    wderAccum lenient utts = some
      (utts.map (fun u =>
        1 - (countCorrect lenient u.mapping u.refLabels u.words : ℚ)
          / (u.words.length : ℚ)),
       (utts.map (fun u => u.words.length)).sum,
       (utts.map (fun u => countCorrect lenient u.mapping u.refLabels u.words)).sum) := by
  induction utts with
  | nil => rfl
  | cons u us ih =>
    have ht : ¬u.words.length = 0 := by
      intro h0
      exact h u (List.mem_cons_self u us) (List.length_eq_zero.mp h0)
    simp only [wderAccum]
    rw [if_neg ht, ih (fun v hv => h v (List.mem_cons_of_mem u hv))]
    simp

/-- Membership in the overlap-candidate list. -/
theorem ovlCands_mem (labels : List RefSeg) (span : Itv) (r : RefSeg) :
    r ∈ ovlCands labels span ↔ r ∈ labels ∧ isOverlap (refSpan r) span = true := by
  simp [ovlCands, List.mem_filter]

/-- Lenient matching counts a word correct exactly when the mapped speaker
appears among the speakers of the overlapping reference segments tied for
maximum overlap length. -/
theorem wordCorrect_lenient_iff (mapping : List (String × String))
    (labels : List RefSeg) (w : WordEntry) (est : String)
    (hmap : mapping.lookup w.speaker_label = some est) :
    wordCorrect true mapping labels w = 1 ↔
      ∃ r ∈ labels, isOverlap (refSpan r) (wordSpan w) = true ∧
        (∀ s ∈ labels, isOverlap (refSpan s) (wordSpan w) = true →
          ovlLen s (wordSpan w) ≤ ovlLen r (wordSpan w)) ∧ r.spk = est := by
  unfold wordCorrect
  rw [hmap]
  cases hc : ovlCands labels (wordSpan w) with
  | nil =>
    dsimp only
    constructor
    · intro h1
      exact absurd h1 (by decide)
    · rintro ⟨r, hr, hovl, hmax, hspk⟩
      have hrc : r ∈ ovlCands labels (wordSpan w) :=
        (ovlCands_mem labels (wordSpan w) r).mpr ⟨hr, hovl⟩
      rw [hc] at hrc
      simp at hrc
  | cons c cs =>
    dsimp only
    rw [if_pos (rfl : (true : Bool) = true)]
    have hmemiff : ∀ r, r ∈ c :: cs ↔
        r ∈ labels ∧ isOverlap (refSpan r) (wordSpan w) = true := by
      intro r
      rw [← hc]
      exact ovlCands_mem labels (wordSpan w) r
    set m := (cs.map fun r => ovlLen r (wordSpan w)).foldr max
      (ovlLen c (wordSpan w)) with hm
    have hub : ∀ r ∈ c :: cs, ovlLen r (wordSpan w) ≤ m := by
      intro r hr
      rcases List.mem_cons.mp hr with rfl | hr
      · exact base_le_foldr_max _ _
      · exact le_foldr_max _ _ _ (List.mem_map_of_mem _ hr)
    have hex : ∃ r ∈ c :: cs, ovlLen r (wordSpan w) = m := by
      rcases foldr_max_mem (cs.map fun r => ovlLen r (wordSpan w))
          (ovlLen c (wordSpan w)) with hbase | hmem
      · rw [← hm] at hbase
        exact ⟨c, List.mem_cons_self c cs, hbase.symm⟩
      · rw [← hm] at hmem
        obtain ⟨r, hrcs, hlen⟩ := List.mem_map.mp hmem
        exact ⟨r, List.mem_cons_of_mem c hrcs, hlen⟩
    constructor
    · intro h1
      by_cases hP : est ∈ ((c :: cs).filter
          (fun r => decide (ovlLen r (wordSpan w) = m))).map RefSeg.spk
      · obtain ⟨r, hrf, hspk⟩ := List.mem_map.mp hP
        have hrc := List.mem_filter.mp hrf
        have hrlen : ovlLen r (wordSpan w) = m := by
          have := hrc.2
          simpa using this
        have hrl := (hmemiff r).mp hrc.1
        refine ⟨r, hrl.1, hrl.2, ?_, hspk⟩
        intro s hs hsovl
        have hsc : s ∈ c :: cs := (hmemiff s).mpr ⟨hs, hsovl⟩
        rw [hrlen]
        exact hub s hsc
      · rw [if_neg hP] at h1
        exact absurd h1 (by decide)
    · rintro ⟨r, hr, hovl, hmax, hspk⟩
      have hrc : r ∈ c :: cs := (hmemiff r).mpr ⟨hr, hovl⟩
      have hler : ovlLen r (wordSpan w) ≤ m := hub r hrc
      have hge : m ≤ ovlLen r (wordSpan w) := by
        obtain ⟨r2, hr2, h2⟩ := hex
        have hr2l := (hmemiff r2).mp hr2
        calc m = ovlLen r2 (wordSpan w) := h2.symm
          _ ≤ ovlLen r (wordSpan w) := hmax r2 hr2l.1 hr2l.2
      have heq : ovlLen r (wordSpan w) = m := le_antisymm hler hge
      have hP : est ∈ ((c :: cs).filter
          (fun r => decide (ovlLen r (wordSpan w) = m))).map RefSeg.spk :=
        List.mem_map.mpr ⟨r, List.mem_filter.mpr ⟨hrc, by simp [heq]⟩, hspk⟩
      rw [if_pos hP]

/-- Strict matching counts a word correct exactly when the mapped speaker
equals the speaker of the unique reference segment of maximum overlap. -/
theorem wordCorrect_strict_iff (mapping : List (String × String))
    (labels : List RefSeg) (w : WordEntry) (est : String) (r0 : RefSeg)
    (hmap : mapping.lookup w.speaker_label = some est)
    (hr0 : r0 ∈ labels)
    (hovl0 : isOverlap (refSpan r0) (wordSpan w) = true)
    (huniq : ∀ s ∈ labels, isOverlap (refSpan s) (wordSpan w) = true → s ≠ r0 →
      ovlLen s (wordSpan w) < ovlLen r0 (wordSpan w)) :
    wordCorrect false mapping labels w = 1 ↔ r0.spk = est := by
  unfold wordCorrect
  rw [hmap]
  cases hc : ovlCands labels (wordSpan w) with
  | nil =>
    exfalso
    have hrc : r0 ∈ ovlCands labels (wordSpan w) :=
      (ovlCands_mem labels (wordSpan w) r0).mpr ⟨hr0, hovl0⟩
    rw [hc] at hrc
    simp at hrc
  | cons c cs =>
    dsimp only
    rw [if_neg (by decide : ¬((false : Bool) = true))]
    have hmemiff : ∀ r, r ∈ c :: cs ↔
        r ∈ labels ∧ isOverlap (refSpan r) (wordSpan w) = true := by
      intro r
      rw [← hc]
      exact ovlCands_mem labels (wordSpan w) r
    set m := (cs.map fun r => ovlLen r (wordSpan w)).foldr max
      (ovlLen c (wordSpan w)) with hm
    have hub : ∀ r ∈ c :: cs, ovlLen r (wordSpan w) ≤ m := by
      intro r hr
      rcases List.mem_cons.mp hr with rfl | hr
      · exact base_le_foldr_max _ _
      · exact le_foldr_max _ _ _ (List.mem_map_of_mem _ hr)
    have hr0c : r0 ∈ c :: cs := (hmemiff r0).mpr ⟨hr0, hovl0⟩
    have hm0 : m = ovlLen r0 (wordSpan w) := by
      refine le_antisymm ?_ (hub r0 hr0c)
      rcases foldr_max_mem (cs.map fun r => ovlLen r (wordSpan w))
          (ovlLen c (wordSpan w)) with hbase | hmem
      · rw [← hm] at hbase
        rcases Classical.em (c = r0) with rfl | hne
        · rw [hbase]
        · have hcl := (hmemiff c).mp (List.mem_cons_self c cs)
          rw [hbase]
          exact le_of_lt (huniq c hcl.1 hcl.2 hne)
      · rw [← hm] at hmem
        obtain ⟨r2, hr2cs, hlen⟩ := List.mem_map.mp hmem
        rcases Classical.em (r2 = r0) with rfl | hne
        · rw [← hlen]
        · have hr2l := (hmemiff r2).mp (List.mem_cons_of_mem c hr2cs)
          rw [← hlen]
          exact le_of_lt (huniq r2 hr2l.1 hr2l.2 hne)
    cases hf : (c :: cs).find? (fun r => decide (ovlLen r (wordSpan w) = m)) with
    | none =>
      exfalso
      have := List.find?_eq_none.mp hf r0 hr0c
      simp [hm0] at this
    | some y =>
      dsimp only
      have hy1 : ovlLen y (wordSpan w) = m := by
        have := List.find?_some hf
        simpa using this
      have hy2 : y ∈ c :: cs := List.mem_of_find?_eq_some hf
      have hyr0 : y = r0 := by
        rcases Classical.em (y = r0) with h | hne
        · exact h
        · exfalso
          have hyl := (hmemiff y).mp hy2
          have := huniq y hyl.1 hyl.2 hne
          rw [hy1, hm0] at this
          exact lt_irrefl _ this
      subst hyr0
      constructor
      · intro h1
        by_cases hsp : y.spk = est
        · exact hsp
        · rw [if_neg hsp] at h1
          exact absurd h1 (by decide)
      · intro hsp
        rw [if_pos hsp]

/-- `wderAccum` fails (division by zero) as soon as some utterance has an
empty word list. -/
theorem wderAccum_none (lenient : Bool) (utts : List Utt)
    (h : ∃ u ∈ utts, u.words = []) : wderAccum lenient utts = none := by
  induction utts with
  | nil =>
    obtain ⟨u, hu, -⟩ := h
    simp at hu
  | cons u us ih =>
    obtain ⟨v, hv, hw⟩ := h
    simp only [wderAccum]
    rcases List.mem_cons.mp hv with rfl | hv2
    · rw [if_pos (by rw [hw]; rfl)]
    · by_cases ht : u.words.length = 0
      · rw [if_pos ht]
      · rw [if_neg ht, ih ⟨v, hv2, hw⟩]

/-! ### Claim theorems -/

/-- Claim C1: in the alignment assembler, every word is assigned the speaker
of the interval tracked by the pointer: if the word's midpoint `(start+end)/2`
is below the current interval's end the current speaker is kept, otherwise
the pointer advances one interval (saturating at the last) and that
interval's speaker is assigned with a speaker-turn marker. -/
theorem claim_C1 (labels : List SpkItv) (wordTs : List Itv) (h : labels ≠ []) :
    writeJsonAndTranscriptAssign labels wordTs = assignSpecGo labels 0 wordTs := by
  cases labels with
  | nil => exact absurd rfl h
  | cons L0 rest =>
    have h0 : (((L0 :: rest)[0]?).getD ⟨0, 0, ""⟩) = L0 := by simp
    have hgo := assignGo_eq_assignSpecGo (L0 :: rest) wordTs 0
    rw [h0] at hgo
    show assignGo (L0 :: rest) 0 L0.en L0.spk wordTs = assignSpecGo (L0 :: rest) 0 wordTs
    exact hgo

/-- Witness for C1 at a concrete two-interval, two-word instance. -/
theorem claim_C1_witness :
    writeJsonAndTranscriptAssign
        [⟨0, 1, "speaker_0"⟩, ⟨1, 2, "speaker_1"⟩] [(0, 1), (1, 2)]
      = assignSpecGo [⟨0, 1, "speaker_0"⟩, ⟨1, 2, "speaker_1"⟩] 0 [(0, 1), (1, 2)] :=
  claim_C1 [⟨0, 1, "speaker_0"⟩, ⟨1, 2, "speaker_1"⟩] [(0, 1), (1, 2)] (by simp)

/-- Claim C3: the speech-interval merger merges consecutive intervals whose
gap is at most `nonspeech_threshold`, right-to-left so merges cascade; on
`[0,1],[1.1,2],[2.05,3]` with threshold `0.1` the result is `[0,3]`. -/
theorem claim_C3 :
    (∀ (thr : ℚ) (l : List Itv),
      getSpeechLabelsFromDecodedPrediction thr l = mergeSpecList thr l) ∧
    getSpeechLabelsFromDecodedPrediction (1/10)
      [(0, 1), (11/10, 2), (41/20, 3)] = [(0, 3)] := by
  refine ⟨getSpeechLabels_eq_mergeSpecList, ?_⟩
  rw [getSpeechLabels_eq_mergeSpecList]
  norm_num [mergeSpecList, combineSpec]

/-- Claim C4: the speech-interval merger is idempotent: running it on its
own output returns the output unchanged. -/
theorem claim_C4 (thr : ℚ) (l : List Itv) :
    getSpeechLabelsFromDecodedPrediction thr
        (getSpeechLabelsFromDecodedPrediction thr l)
      = getSpeechLabelsFromDecodedPrediction thr l := by
  rw [getSpeechLabels_eq_mergeSpecList, getSpeechLabels_eq_mergeSpecList]
  exact mergeSpec_idem thr l

/-- Claim C5: the overlap test returns true exactly when
`wordEnd > refStart` and `refEnd > wordStart` (touching intervals do not
overlap), the overlap length is `min(ends) - max(starts)`, and word
`[1.0,2.0]` vs reference `[1.5,2.5]` overlaps with length `0.5`. -/
theorem claim_C5 :
    (∀ word ref : Itv, isOverlap ref word = true ↔ word.2 > ref.1 ∧ ref.2 > word.1) ∧
    (∀ word ref : Itv, getOverlapRange ref word = min word.2 ref.2 - max word.1 ref.1) ∧
    (∀ (refs : List Itv) (word : Itv),
      isOverlapArray refs word = refs.map (fun r => isOverlap r word) ∧
      getOverlapRangeArray refs word = refs.map (fun r => getOverlapRange r word)) ∧
    isOverlap (3/2, 5/2) (1, 2) = true ∧
    getOverlapRange (3/2, 5/2) (1, 2) = 1/2 ∧
    isOverlap (1, 2) (2, 3) = false := by
  refine ⟨?_, ?_, fun refs word => ⟨rfl, rfl⟩, ?_, ?_, ?_⟩
  · intro word ref
    simp [isOverlap, and_comm]
  · intro word ref
    simp [getOverlapRange, min_comm, max_comm]
  · norm_num [isOverlap]
  · norm_num [getOverlapRange]
  · norm_num [isOverlap]

/-- Claim C6: `get_effective_WDER` computes
`1 - (1 - (FA + MISS)) * (1 - WDER_total)`, and with `FA = 0` and
`MISS = 0` it equals `WDER_total` exactly. -/
theorem claim_C6 (d : DERTotals) (wderTotal : ℚ) :
    get_effective_WDER d wderTotal
        = 1 - (1 - (d.FA + d.MISS)) * (1 - wderTotal)
    ∧ (d.FA = 0 → d.MISS = 0 → get_effective_WDER d wderTotal = wderTotal) := by
  constructor
  · rfl
  · intro hfa hm
    unfold get_effective_WDER
    rw [hfa, hm]
    ring

/-- Witness for C6 at `FA = MISS = 0`, `WDER_total = 1/3`. -/
theorem claim_C6_witness : get_effective_WDER ⟨0, 0⟩ (1/3) = 1/3 :=
  (claim_C6 ⟨0, 0⟩ (1/3)).2 rfl rfl

/-- Claim C9: `get_WDER` divides by `total_word_count` unconditionally, so
an utterance with an empty recognized-word list makes the computation fail
with a division by zero (modelled as `none`). -/
theorem claim_C9 (lenient : Bool) (utts : List Utt)
    (h : ∃ u ∈ utts, u.words = []) : get_WDER lenient utts = none := by
  unfold get_WDER
  rw [wderAccum_none lenient utts h]

/-- Witness for C9: one utterance with no recognized words. -/
theorem claim_C9_witness : get_WDER false [⟨[], [], []⟩] = none :=
  claim_C9 false [⟨[], [], []⟩] ⟨⟨[], [], []⟩, by simp, rfl⟩

/-- A one-word utterance whose single word maps to speaker `x` but whose
only reference segment belongs to speaker `y` (all words wrong). -/
def uttA : Utt := ⟨[⟨0, 1, "A"⟩], [("A", "x")], [⟨0, 10, "y"⟩]⟩

/-- A three-word utterance whose words all map to the reference speaker
(all words correct). -/
def uttB : Utt := ⟨[⟨0, 1, "A"⟩, ⟨1, 2, "A"⟩, ⟨2, 3, "A"⟩], [("A", "x")], [⟨0, 10, "x"⟩]⟩

/-- Claim C2: `get_WDER` computes per-utterance
`1 - correct_word_count / total_word_count` and the pooled total
`1 - Σcorrect / Σtotal`; for the two concrete utterances `uttA` (WDER 1,
one word) and `uttB` (WDER 0, three words) the pooled total `1/4` differs
from the arithmetic mean `1/2` of the per-utterance values. -/
theorem claim_C2 (lenient : Bool) (utts : List Utt)
    (hne : utts ≠ []) (h : ∀ u ∈ utts, u.words ≠ []) :
    get_WDER lenient utts = some
      (utts.map (fun u =>
        1 - (countCorrect lenient u.mapping u.refLabels u.words : ℚ)
          / (u.words.length : ℚ)),
       1 - (((utts.map (fun u => countCorrect lenient u.mapping u.refLabels u.words)).sum : ℕ) : ℚ)
         / (((utts.map (fun u => u.words.length)).sum : ℕ) : ℚ))
    ∧ get_WDER false [uttA, uttB] = some ([1, 0], 1/4)
    ∧ (1/4 : ℚ) ≠ ((1 : ℚ) + (0 : ℚ)) / 2 := by
  refine ⟨?_, ?_, by norm_num⟩
  · unfold get_WDER
    rw [wderAccum_eq lenient utts h]
    dsimp only
    have hgt : ¬((utts.map (fun u => u.words.length)).sum = 0) := by
      cases utts with
      | nil => exact absurd rfl hne
      | cons u us =>
        intro h0
        simp only [List.map_cons, List.sum_cons] at h0
        have hu := h u (List.mem_cons_self u us)
        have h1 : u.words.length = 0 := by omega
        exact hu (List.length_eq_zero.mp h1)
    rw [if_neg hgt]
  · norm_num [get_WDER, wderAccum, countCorrect, uttA, uttB, wordCorrect, List.lookup,
      ovlCands, wordSpan, refSpan, isOverlap, ovlLen, getOverlapRange, List.filter,
      List.find?]
    refine ⟨by decide, ?_⟩
    rw [if_neg (by decide : ¬("y" = "x"))]
    norm_num

/-- Witness for C2 at the two concrete utterances. -/
theorem claim_C2_witness :
    get_WDER false [uttA, uttB] = some
      ([uttA, uttB].map (fun u =>
        1 - (countCorrect false u.mapping u.refLabels u.words : ℚ)
          / (u.words.length : ℚ)),
       1 - ((([uttA, uttB].map (fun u => countCorrect false u.mapping u.refLabels u.words)).sum : ℕ) : ℚ)
         / ((([uttA, uttB].map (fun u => u.words.length)).sum : ℕ) : ℚ)) :=
  (claim_C2 false [uttA, uttB] (by simp) (by simp [uttA, uttB])).1

/-- Claim C7: under lenient matching a word is counted correct iff the
mapped speaker appears among the speakers of the reference intervals tied
for maximum overlap; under strict matching iff it equals the speaker of
the unique maximum-overlap reference interval. -/
theorem claim_C7 (mapping : List (String × String)) (labels : List RefSeg)
    (w : WordEntry) (est : String)
    (hmap : mapping.lookup w.speaker_label = some est) :
    (wordCorrect true mapping labels w = 1 ↔
      ∃ r ∈ labels, isOverlap (refSpan r) (wordSpan w) = true ∧
        (∀ s ∈ labels, isOverlap (refSpan s) (wordSpan w) = true →
          ovlLen s (wordSpan w) ≤ ovlLen r (wordSpan w)) ∧ r.spk = est)
    ∧ ∀ r0 ∈ labels, isOverlap (refSpan r0) (wordSpan w) = true →
        (∀ s ∈ labels, isOverlap (refSpan s) (wordSpan w) = true → s ≠ r0 →
          ovlLen s (wordSpan w) < ovlLen r0 (wordSpan w)) →
        (wordCorrect false mapping labels w = 1 ↔ r0.spk = est) :=
  ⟨wordCorrect_lenient_iff mapping labels w est hmap,
    fun r0 hr0 hovl huniq =>
      wordCorrect_strict_iff mapping labels w est r0 hmap hr0 hovl huniq⟩

/-- Witness for C7: a word overlapping a single reference segment whose
speaker matches the mapped label is counted correct under strict matching. -/
theorem claim_C7_witness :
    wordCorrect false [("A", "x")] [⟨0, 10, "x"⟩] ⟨1, 2, "A"⟩ = 1 :=
  ((claim_C7 [("A", "x")] [⟨0, 10, "x"⟩] ⟨1, 2, "A"⟩ "x" (by decide)).2
    ⟨0, 10, "x"⟩ (by simp)
    (by norm_num [isOverlap, refSpan, wordSpan])
    (by
      intro s hs hovl hne
      exact absurd (by simpa using hs) hne)).mpr rfl

/-- Claim C10: for an utterance with `N ≥ 1` word timestamps the enhanced
timestamp list has exactly `N - 1` entries, and the alignment pass, which
produces one assigned word per timestamp entry, therefore omits the final
word. -/
theorem claim_C10 (frames : List ℚ) (sadThr maxLen : ℚ) (wts : List Itv)
    (h : wts ≠ []) :
    (get_enhanced_word_ts_list frames sadThr maxLen wts).length = wts.length - 1 ∧
    ∀ labels : List SpkItv, labels ≠ [] →
      (writeJsonAndTranscriptAssign labels
        (get_enhanced_word_ts_list frames sadThr maxLen wts)).length
        = wts.length - 1 := by
  have hlen : (get_enhanced_word_ts_list frames sadThr maxLen wts).length
      = wts.length - 1 := by
    unfold get_enhanced_word_ts_list
    rw [List.length_map, List.length_zip, List.length_tail]
    omega
  refine ⟨hlen, ?_⟩
  intro labels hl
  cases labels with
  | nil => exact absurd rfl hl
  | cons L0 rest =>
    show (assignGo (L0 :: rest) 0 L0.en L0.spk
      (get_enhanced_word_ts_list frames sadThr maxLen wts)).length = wts.length - 1
    rw [assignGo_length]
    exact hlen

/-- Witness for C10: two word timestamps produce one enhanced entry and one
aligned word. -/
theorem claim_C10_witness :
    (get_enhanced_word_ts_list [] 0 1 [(0, 1), (2, 3)]).length = 1 ∧
    ∀ labels : List SpkItv, labels ≠ [] →
      (writeJsonAndTranscriptAssign labels
        (get_enhanced_word_ts_list [] 0 1 [(0, 1), (2, 3)])).length = 1 :=
  claim_C10 [] 0 1 [(0, 1), (2, 3)] (by simp)

/-- Claim C8: for every word processed by silence extension (timestamps on
the centisecond grid produced by `apply_delay`, ordered, and no longer than
the cap), the extended end is
`min(start + max_word_length, silence_candidate_end, next_start - 0.01)`
floored to at least the original end: the word never shrinks, never
extends past the next word's start, and never exceeds the length cap. -/
theorem claim_C8 (frames : List ℚ) (sadThr maxLen : ℚ) (w nxt : Itv)
    (hg1 : ∃ a : ℤ, w.1 = (a : ℚ) / 100)
    (hg2 : ∃ b : ℤ, w.2 = (b : ℚ) / 100)
    (hg3 : ∃ n : ℤ, nxt.1 = (n : ℚ) / 100)
    (hord : w.1 ≤ w.2) (hnext : w.2 ≤ nxt.1) (hcap : w.2 - w.1 ≤ maxLen) :
    (enhanceWord frames sadThr maxLen w nxt).1 = w.1 ∧
    (enhanceWord frames sadThr maxLen w nxt).2 =
      max (min (w.1 + maxLen)
        (min (closest_silence_start (⌊100 * w.2⌋).toNat frames sadThr)
          (nxt.1 - 1/100))) w.2 ∧
    w.2 ≤ (enhanceWord frames sadThr maxLen w nxt).2 ∧
    (enhanceWord frames sadThr maxLen w nxt).2 ≤ nxt.1 ∧
    (enhanceWord frames sadThr maxLen w nxt).2
      - (enhanceWord frames sadThr maxLen w nxt).1 ≤ maxLen := by
  obtain ⟨a, ha⟩ := hg1
  obtain ⟨b, hb⟩ := hg2
  obtain ⟨n, hn⟩ := hg3
  obtain ⟨z, hz⟩ := closest_silence_start_grid (⌊100 * w.2⌋).toNat frames sadThr
  have h1 : round2 (closest_silence_start (⌊100 * w.2⌋).toNat frames sadThr - w.1)
      = closest_silence_start (⌊100 * w.2⌋).toNat frames sadThr - w.1 :=
    round2_on_grid _ ⟨z - a, by rw [hz, ha]; push_cast; ring⟩
  have h2 : round2 (w.2 - w.1) = w.2 - w.1 :=
    round2_on_grid _ ⟨b - a, by rw [hb, ha]; push_cast; ring⟩
  have h3 : round2 (nxt.1 - w.1 - 1/100) = nxt.1 - w.1 - 1/100 :=
    round2_on_grid _ ⟨n - a - 1, by rw [hn, ha]; push_cast; ring⟩
  have he1 : (enhanceWord frames sadThr maxLen w nxt).1 = w.1 := rfl
  have hraw : (enhanceWord frames sadThr maxLen w nxt).2 =
      w.1 + max (min maxLen
        (min (round2 (closest_silence_start (⌊100 * w.2⌋).toNat frames sadThr - w.1))
          (round2 (nxt.1 - w.1 - 1/100)))) (round2 (w.2 - w.1)) := rfl
  have he2 : (enhanceWord frames sadThr maxLen w nxt).2 =
      max (min (w.1 + maxLen)
        (min (closest_silence_start (⌊100 * w.2⌋).toNat frames sadThr)
          (nxt.1 - 1/100))) w.2 := by
    rw [hraw, h1, h2, h3]
    rw [← max_add_add_left, ← min_add_add_left, ← min_add_add_left]
    have e1 : w.1 + (closest_silence_start (⌊100 * w.2⌋).toNat frames sadThr - w.1)
        = closest_silence_start (⌊100 * w.2⌋).toNat frames sadThr := by ring
    have e2 : w.1 + (nxt.1 - w.1 - 1/100) = nxt.1 - 1/100 := by ring
    have e3 : w.1 + (w.2 - w.1) = w.2 := by ring
    rw [e1, e2, e3]
  refine ⟨he1, he2, ?_, ?_, ?_⟩
  · rw [he2]
    exact le_max_right _ _
  · rw [he2]
    refine max_le ?_ hnext
    calc min (w.1 + maxLen)
          (min (closest_silence_start (⌊100 * w.2⌋).toNat frames sadThr) (nxt.1 - 1/100))
        ≤ min (closest_silence_start (⌊100 * w.2⌋).toNat frames sadThr) (nxt.1 - 1/100) :=
          min_le_right _ _
      _ ≤ nxt.1 - 1/100 := min_le_right _ _
      _ ≤ nxt.1 := by linarith
  · rw [he1, he2]
    have hle : max (min (w.1 + maxLen)
        (min (closest_silence_start (⌊100 * w.2⌋).toNat frames sadThr)
          (nxt.1 - 1/100))) w.2 ≤ w.1 + maxLen :=
      max_le (min_le_left _ _) (by linarith)
    linarith

/-- Witness for C8: a one-centisecond word followed by a word starting one
centisecond later, with no VAD frames and a one-second cap. -/
theorem claim_C8_witness :
    (enhanceWord [] 0 1 (0, 1/100) (2/100, 3/100)).1 = 0 ∧
    (enhanceWord [] 0 1 (0, 1/100) (2/100, 3/100)).2 =
      max (min ((0 : ℚ) + 1)
        (min (closest_silence_start (⌊(100 : ℚ) * (1/100)⌋).toNat [] 0)
          ((2/100 : ℚ) - 1/100))) (1/100) ∧
    (1/100 : ℚ) ≤ (enhanceWord [] 0 1 (0, 1/100) (2/100, 3/100)).2 ∧
    (enhanceWord [] 0 1 (0, 1/100) (2/100, 3/100)).2 ≤ 2/100 ∧
    (enhanceWord [] 0 1 (0, 1/100) (2/100, 3/100)).2
      - (enhanceWord [] 0 1 (0, 1/100) (2/100, 3/100)).1 ≤ 1 :=
  claim_C8 [] 0 1 (0, 1/100) (2/100, 3/100)
    ⟨0, by norm_num⟩ ⟨1, by norm_num⟩ ⟨2, by norm_num⟩
    (by norm_num) (by norm_num) (by norm_num)
